import Mathlib

/-!
Verification of the translation orchestration engine in
`.github/translation/translate_repo.py`.

Text is modelled as `List Char`; file writes and HTTP calls are modelled by
explicit arguments and return values.  Functions keep the source's names
(snake_case turned into camelCase).
-/

namespace TranslateRepo

/-- Shorthand for turning a string literal into the character list model. -/
def toL (s : String) : List Char := s.toList

/-! ### Paragraph chunker: `split_for_api` (lines 81-99) -/

/-- The paragraph separator `"\n\n"` appended to each paragraph on line 89. -/
def nn : List Char := ['\n', '\n']

/-- Python `text.split("\n\n")` (line 88): split on the two-character
separator, scanning left to right, non-overlapping. -/
def splitOnBlank : List Char → List (List Char)
  | [] => [[]]
  | '\n' :: '\n' :: rest => [] :: splitOnBlank rest
  | c :: rest =>
    match splitOnBlank rest with
    | [] => [[c]]
    | p :: ps => (c :: p) :: ps

/-- The accumulation loop of `split_for_api` (lines 88-98).  `buf` holds the
pending chunks in reverse; `size` is the running character count. -/
def sfaGo (maxChars : Nat) : List (List Char) → List (List Char) → Nat → List (List Char)
  | [], buf, _ => if buf.isEmpty then [] else [buf.reverse.flatten]
  | para :: rest, buf, size =>
    if size + (para ++ nn).length > maxChars ∧ ¬ buf.isEmpty then
      buf.reverse.flatten :: sfaGo maxChars rest [para ++ nn] (para ++ nn).length
    else
      sfaGo maxChars rest ((para ++ nn) :: buf) (size + (para ++ nn).length)

/-- `split_for_api(text, max_chars)` (lines 81-99). -/
def splitForApi (text : List Char) (maxChars : Nat) : List (List Char) :=
  if text.length ≤ maxChars then [text] else sfaGo maxChars (splitOnBlank text) [] 0

/-! ### Fence segmenter: `chunk_code_blocks` (lines 64-79) -/

/-- Boolean literal-match test: does `pat` start the list `s`?  (The regex
engine's literal matching; same as `List.isPrefixOf` for `Char`.) -/
def startsWith : List Char → List Char → Bool
  | [], _ => true
  | _ :: _, [] => false
  | a :: as, b :: bs => a == b && startsWith as bs

/-- The three-backtick fence marker. -/
def btM : List Char := toL "```"

/-- The three-tilde fence marker. -/
def tdM : List Char := toL "~~~"

/-- Index of the first suffix of `s` that begins with `m`: the non-greedy
(`.*?`) search for the closing fence marker. -/
def findClose (m : List Char) : List Char → Option Nat
  | [] => if startsWith m [] then some 0 else none
  | c :: t => if startsWith m (c :: t) then some 0 else (findClose m t).map (· + 1)

/-- One attempt of the alternation `(` ``` `.*?` ``` `|~~~.*?~~~)` at the
current position (regex of line 69, `re.DOTALL`): if the text starts with a
fence marker that has a closing occurrence later, return the matched span and
the remainder. -/
def tryOpen (s : List Char) : Option (List Char × List Char) :=
  if startsWith btM s then
    match findClose btM (s.drop 3) with
    | some j => some (s.take (j + 6), s.drop (j + 6))
    | none => none
  else if startsWith tdM s then
    match findClose tdM (s.drop 3) with
    | some j => some (s.take (j + 6), s.drop (j + 6))
    | none => none
  else none

/-- The scan of `pattern.finditer` (line 72): find the leftmost match,
returning the text before it, the matched code span, and the remainder. -/
def findFence : List Char → Option (List Char × List Char × List Char)
  | [] => none
  | c :: t =>
    match tryOpen (c :: t) with
    | some (code, rest) => some ([], code, rest)
    | none => (findFence t).map (fun pr => (c :: pr.1, pr.2.1, pr.2.2))

/-- Segment kinds of `chunk_code_blocks`: `('text', …)` or `('code', …)`. -/
inductive SegKind
  | text
  | code
deriving DecidableEq, Repr

/-- A segment: the pairs appended to `parts` in lines 74-78. -/
abbrev Seg := SegKind × List Char

/-- Fuel-indexed loop of `chunk_code_blocks`: each iteration removes one fenced
span (at least six characters), so fuel `|s| + 1` always suffices. -/
def ccbAux : Nat → List Char → List Seg
  | 0, s => if s = [] then [] else [(SegKind.text, s)]
  | fuel + 1, s =>
    match findFence s with
    | none => if s = [] then [] else [(SegKind.text, s)]
    | some (pre, code, rest) =>
      (if pre = [] then [] else [(SegKind.text, pre)]) ++ (SegKind.code, code) :: ccbAux fuel rest

/-- `chunk_code_blocks(s)` (lines 64-79). -/
def chunkCodeBlocks (s : List Char) : List Seg := ccbAux (s.length + 1) s

/-! ### Work partitioner: `get_file_batch` (lines 113-122) -/

/-- `get_file_batch(p, batch_total)` (lines 113-118).  The MD5 digest of the
path string (a fixed deterministic function) is abstracted as `h`. -/
def getFileBatch (h : String → Nat) (p : String) (batchTotal : Nat) : Nat :=
  if batchTotal ≤ 1 then 0 else h p % batchTotal

/-- `should_process_file` (lines 120-122). -/
def shouldProcessFile (h : String → Nat) (p : String) (batchCurrent batchTotal : Nat) : Bool :=
  getFileBatch h p batchTotal == batchCurrent

/-! ### JSON eligibility policy (lines 109-111 and 280-297) -/

/-- `is_probably_identifier(s)` (lines 109-111): full match of
`[A-Za-z0-9_\-\.\/:]+`. -/
def isProbablyIdentifier (v : List Char) : Bool :=
  !v.isEmpty && v.all (fun c => c.isAlphanum || c == '_' || c == '-' || c == '.' || c == '/' || c == ':')

/-- The `cfg_json` policy fields read in lines 281-284. -/
structure JsonCfg where
  mode : String
  ignoreKeys : List String
  preferKeys : List String
  includeKeys : List String

/-- The `do_translate` decision chain of `translate_json_value`
(lines 286-297). -/
def jsonEligible (cfg : JsonCfg) (key : String) (v : List Char) : Bool :=
  if cfg.preferKeys.contains key then true
  else if cfg.ignoreKeys.contains key then false
  else if cfg.mode == "include_except_ignored" then
    !isProbablyIdentifier v || v.length > 32
  else if cfg.mode == "include_only" then cfg.includeKeys.contains key
  else false

/-! ### Provider A retry loop: `Translator._openai` (lines 214-227) -/

/-- A provider HTTP response: status code and extracted text body. -/
structure HttpResp where
  status : Nat
  body : String
deriving DecidableEq, Repr

/-- Outcome of one `_openai` call: the returned translation, or the status of
the exception raised by `raise_for_status`. -/
inductive HRes
  | ok : String → HRes
  | err : Nat → HRes
deriving DecidableEq, Repr

/-- The retryable status set of line 217. -/
def retryable (st : Nat) : Bool := st == 429 || st == 500 || st == 502 || st == 503

/-- The `for attempt in range(2)` loop of lines 215-225.  `attempt` is the
index of the next request; `remaining` the remaining loop iterations.  Returns
the outcome, the number of requests issued, and the number of retry waits
slept.  On loop exhaustion, `r.raise_for_status()` runs on the last response
(line 226); the `return ""` of line 227 is the unreachable fall-through. -/
def openaiGo (resps : Nat → HttpResp) : Nat → Nat → HRes × Nat × Nat
  | attempt, 0 =>
    (if 400 ≤ (resps (attempt - 1)).status then HRes.err (resps (attempt - 1)).status
     else HRes.ok "", 0, 0)
  | attempt, remaining + 1 =>
    let r := resps attempt
    if retryable r.status then
      let out := openaiGo resps (attempt + 1) remaining
      (out.1, out.2.1 + 1, out.2.2 + 1)
    else if 400 ≤ r.status then (HRes.err r.status, 1, 0)
    else (HRes.ok r.body, 1, 0)

/-- `Translator._openai` for one chunk, as a function of the sequence of
responses the endpoint returns on successive requests. -/
def openaiRequest (resps : Nat → HttpResp) : HRes × Nat × Nat := openaiGo resps 0 2

/-! ### Glossary postprocessor: `load_glossary` / `apply_glossary` (lines 37-62) -/

/-- A glossary entry `(source_term, target_term)`. -/
abbrev GEntry := List Char × List Char

/-- Stable insertion of an entry into a list already sorted by descending
source-term length: the entry goes after every earlier entry of greater or
equal length. -/
def insertDesc (x : GEntry) : List GEntry → List GEntry
  | [] => [x]
  | y :: ys => if y.1.length ≤ x.1.length then x :: y :: ys else y :: insertDesc x ys

/-- The stable sort `rows.sort(key=lambda x: len(x[0]), reverse=True)` of
`load_glossary` (line 50). -/
def sortGlossary (rows : List GEntry) : List GEntry := rows.foldr insertDesc []

/-- A generic left-to-right scan-and-replace: `m prv t` inspects the previous
original character `prv` and the remaining text `t` and returns `some k` to
replace the next `k + 1` characters by `dst`, or `none` to keep one character.
Fuel `|s|` always suffices since every step consumes at least one character. -/
def scanRep (m : Option Char → List Char → Option Nat) (dst : List Char) :
    Nat → Option Char → List Char → List Char
  | _, _, [] => []
  | 0, _, c :: rest => c :: rest
  | fuel + 1, prv, c :: rest =>
    match m prv (c :: rest) with
    | some k => dst ++ scanRep m dst fuel (some ((c :: rest).getD k c)) (rest.drop k)
    | none => c :: scanRep m dst fuel (some c) rest

/-- Python `s.replace(src, dst)` (line 57): replace every non-overlapping
occurrence, scanning left to right.  (`load_glossary` guarantees `pat ≠ []`;
for `pat = []` this is the identity, where Python would interleave `dst`.) -/
def strReplace (pat dst s : List Char) : List Char :=
  scanRep (fun _ t => if startsWith pat t && !pat.isEmpty then some (pat.length - 1) else none)
    dst s.length none s

/-- Python word characters `\w` (restricted to the ASCII fragment used by the
glossary terms): letters, digits and underscore. -/
def asciiWordChar (c : Char) : Bool := c.isAlphanum || c == '_'

/-- Word-character test on an optional adjacent character (`none` stands for
the edge of the string, which is a non-word position). -/
def wordAt (w : Char → Bool) : Option Char → Bool
  | none => false
  | some c => w c

/-- Case-insensitive character equality (`re.IGNORECASE`, ASCII folding). -/
def ciEq (a b : Char) : Bool := a.toLower == b.toLower

/-- Case-insensitive literal-match test: does `pat` start the list `s` up to
case folding? -/
def ciStarts : List Char → List Char → Bool
  | [], _ => true
  | _ :: _, [] => false
  | a :: as, b :: bs => ciEq a b && ciStarts as bs

/-- Matcher for `re.compile(r'\b' + re.escape(src) + r'\b', re.IGNORECASE)`
(line 60): a case-insensitive literal occurrence of `pat` flanked by word
boundaries.  The word-character predicate `w` is a parameter. -/
def reMatcher (w : Char → Bool) (pat : List Char) (prv : Option Char) (s : List Char) : Option Nat :=
  if ciStarts pat s && !pat.isEmpty
      && (wordAt w prv != wordAt w s.head?)
      && (wordAt w (s.drop (pat.length - 1)).head? != wordAt w (s.drop pat.length).head?)
  then some (pat.length - 1) else none

/-- Python `pattern.sub(dst, s)` for the word-boundary pattern of line 60. -/
def reSub (w : Char → Bool) (pat dst s : List Char) : List Char :=
  scanRep (reMatcher w pat) dst s.length none s

/-- `apply_glossary(s, glossary)` (lines 54-62): for each entry in order, an
exact replace (line 57) followed by the case-insensitive word-boundary replace
(lines 60-61). -/
def applyGlossary (w : Char → Bool) (g : List GEntry) (s : List Char) : List Char :=
  g.foldl (fun acc e => reSub w e.1 e.2 (strReplace e.1 e.2 acc)) s

/-- Boolean substring test, used to state absence of a term from an output. -/
def containsSub (pat : List Char) : List Char → Bool
  | [] => startsWith pat []
  | c :: rest => startsWith pat (c :: rest) || containsSub pat rest

/-! ### Provider fallback orchestrator: `Translator.translate` (lines 139-188) -/

/-- The translator context: which credentials are present (lines 142-143), the
engine order (lines 146-150), and the per-chunk behaviour of each provider
(`none` models the call raising an exception, `some t` a successful
translation). -/
structure TrEnv where
  openaiKey : Bool
  deeplKey : Bool
  openaiF : List Char → Option (List Char)
  deeplF : List Char → Option (List Char)
  engineOrder : List String

/-- The `for engine in self.engine_order` loop of lines 163-175 for one chunk:
an engine is attempted only if its name matches and its key is present; an
exception falls through to the next engine; a success breaks.  Also counts the
provider requests issued. -/
def tryEngines (env : TrEnv) (ch : List Char) : List String → Option (List Char) × Nat
  | [] => (none, 0)
  | e :: rest =>
    if e = "openai" ∧ env.openaiKey then
      match env.openaiF ch with
      | some t => (some t, 1)
      | none => ((tryEngines env ch rest).1, (tryEngines env ch rest).2 + 1)
    else if e = "deepl" ∧ env.deeplKey then
      match env.deeplF ch with
      | some t => (some t, 1)
      | none => ((tryEngines env ch rest).1, (tryEngines env ch rest).2 + 1)
    else tryEngines env ch rest

/-- Python whitespace for `str.strip()` (ASCII fragment). -/
def pyIsSpace (c : Char) : Bool :=
  c == ' ' || c == '\t' || c == '\n' || c == '\r' || c == '\x0b' || c == '\x0c'

/-- `not text.strip()` (line 154): true iff the text is empty or whitespace. -/
def stripIsEmpty (s : List Char) : Bool := s.all pyIsSpace

/-- The chunk loop of `Translator.translate` (lines 161-186): on a chunk for
which every engine failed, return the original whole `text` (line 180);
otherwise accumulate the translations and join them (line 188).  Also counts
provider requests. -/
def trGo (env : TrEnv) (text : List Char) :
    List (List Char) → List (List Char) → Nat → List Char × Nat
  | [], acc, n => (acc.reverse.flatten, n)
  | ch :: rest, acc, n =>
    match tryEngines env ch env.engineOrder with
    | (none, k) => (text, n + k)
    | (some t, k) => trGo env text rest (t :: acc) (n + k)

/-- `Translator.translate(text, to_lang)` (lines 153-188), returning the
resulting text and the number of provider requests issued. -/
def translate (env : TrEnv) (text : List Char) : List Char × Nat :=
  if stripIsEmpty text then (text, 0)
  else trGo env text (splitForApi text 4000) [] 0

/-! ### File drivers: `translate_plain_file` (260-270) and
`translate_json_value` (272-319) -/

/-- The shared per-string pipeline: segment with `chunk_code_blocks`, keep code
segments verbatim, translate text segments and run the glossary over the
translation, and join.  This is the loop of lines 263-269 and, identically,
the eligible-string branch of lines 300-309. -/
def translateSegments (env : TrEnv) (w : Char → Bool) (g : List GEntry) (s : List Char) : List Char :=
  ((chunkCodeBlocks s).map (fun seg =>
    match seg.1 with
    | SegKind.code => seg.2
    | SegKind.text => applyGlossary w g (translate env seg.2).1)).flatten

/-- `translate_plain_file` (lines 260-270): the content written back to the
file (`write_text` of line 270 is modelled by the return value). -/
def translatePlainFile (env : TrEnv) (w : Char → Bool) (g : List GEntry) (content : List Char) : List Char :=
  translateSegments env w g content

/-! JSON values (`Any` in lines 272-319): strings, numbers, booleans, null,
arrays and objects with ordered keys.  Arrays and objects are separate
inductives so that structural mutual recursion applies. -/
mutual
inductive JVal
  | str : List Char → JVal
  | num : Int → JVal
  | boolv : Bool → JVal
  | null : JVal
  | arr : JArr → JVal
  | obj : JObj → JVal
inductive JArr
  | nil : JArr
  | cons : JVal → JArr → JArr
inductive JObj
  | nil : JObj
  | cons : String → JVal → JObj → JObj
end

/-! `translate_json_value(v, key, …)` (lines 272-319): strings are translated
when eligible (lines 299-310), lists recurse with the same key (line 313),
dict entries recurse with their own key (lines 314-318), and every other value
passes through (line 319). -/
mutual
def translateJsonValue (env : TrEnv) (w : Char → Bool) (g : List GEntry) (cfg : JsonCfg)
    (key : String) : JVal → JVal
  | JVal.str s => if jsonEligible cfg key s then JVal.str (translateSegments env w g s) else JVal.str s
  | JVal.num n => JVal.num n
  | JVal.boolv b => JVal.boolv b
  | JVal.null => JVal.null
  | JVal.arr xs => JVal.arr (translateJsonArr env w g cfg key xs)
  | JVal.obj ms => JVal.obj (translateJsonObj env w g cfg ms)
def translateJsonArr (env : TrEnv) (w : Char → Bool) (g : List GEntry) (cfg : JsonCfg)
    (key : String) : JArr → JArr
  | JArr.nil => JArr.nil
  | JArr.cons x xs => JArr.cons (translateJsonValue env w g cfg key x) (translateJsonArr env w g cfg key xs)
def translateJsonObj (env : TrEnv) (w : Char → Bool) (g : List GEntry) (cfg : JsonCfg) : JObj → JObj
  | JObj.nil => JObj.nil
  | JObj.cons k x ms => JObj.cons k (translateJsonValue env w g cfg k x) (translateJsonObj env w g cfg ms)
end

/-! Shape comparison of JSON values: equal constructors and nesting, equal
object keys in equal order, equal array lengths and order, equal non-string
leaves; string leaf contents are not compared. -/
mutual
def sameShape : JVal → JVal → Bool
  | JVal.str _, JVal.str _ => true
  | JVal.num a, JVal.num b => a == b
  | JVal.boolv a, JVal.boolv b => a == b
  | JVal.null, JVal.null => true
  | JVal.arr xs, JVal.arr ys => sameShapeArr xs ys
  | JVal.obj ms, JVal.obj ns => sameShapeObj ms ns
  | _, _ => false
def sameShapeArr : JArr → JArr → Bool
  | JArr.nil, JArr.nil => true
  | JArr.cons x xs, JArr.cons y ys => sameShape x y && sameShapeArr xs ys
  | _, _ => false
def sameShapeObj : JObj → JObj → Bool
  | JObj.nil, JObj.nil => true
  | JObj.cons k x ms, JObj.cons k' y ns => k == k' && sameShape x y && sameShapeObj ms ns
  | _, _ => false
end

/-! ### Concrete instances used in counterexamples and witnesses -/

/-- A provider environment whose chat provider translates the single chunk
`"A"` (to `"J"`) and raises on every other chunk. -/
def envC1 : TrEnv :=
  ⟨true, false, fun ch => if ch = toL "A" then some (toL "J") else none, fun _ => none, ["openai"]⟩

/-- A provider environment in which every provider call raises. -/
def envFail : TrEnv := ⟨true, false, fun _ => none, fun _ => none, ["openai"]⟩

/-- A provider environment whose chat provider always returns `"J"`. -/
def envOk : TrEnv := ⟨true, false, fun _ => some (toL "J"), fun _ => none, ["openai"]⟩

/-- Response sequence for scenario C5: retryable, retryable, then success. -/
def c5resps : Nat → HttpResp := fun n => if n ≤ 1 then ⟨429, ""⟩ else ⟨200, "T"⟩

/-- The glossary of testable property C9, in descending source-term length
order (as `load_glossary` produces it). -/
def gEx : List GEntry := [(toL "AI Agent", toL "X"), (toL "AI", toL "Y")]

/-! ## Bridging lemmas between the executable tests and the `List` relations -/

theorem startsWith_iff : ∀ pat s : List Char, startsWith pat s = true ↔ pat <+: s
  | [], s => by simp [startsWith]
  | a :: as, [] => by simp [startsWith]
  | a :: as, b :: bs => by
    simp [startsWith, startsWith_iff as bs, List.cons_prefix_cons, beq_iff_eq]

theorem containsSub_iff (pat : List Char) :
    ∀ s : List Char, containsSub pat s = true ↔ pat <:+: s := by
  intro s
  induction s with
  | nil => simp [containsSub, startsWith_iff]
  | cons c rest ih => simp [containsSub, startsWith_iff, ih, List.infix_cons_iff]

/-! ## C2: the paragraph chunker (`split_for_api`) -/

theorem splitOnBlank_ne_nil (s : List Char) : splitOnBlank s ≠ [] := by
  induction s using splitOnBlank.induct with
  | case1 => simp [splitOnBlank]
  | case2 rest ih => simp [splitOnBlank]
  | case3 c rest h hnil ih => exact absurd hnil ih
  | case4 c rest h p ps hs ih =>
    rw [splitOnBlank.eq_def]
    split
    · simp
    · simp
    · rename_i c' rest' hne heq
      injection heq with hc hr
      subst hc
      subst hr
      rw [hs]
      simp

theorem flatten_splitOnBlank (s : List Char) :
    ((splitOnBlank s).map (· ++ nn)).flatten = s ++ nn := by
  induction s using splitOnBlank.induct with
  | case1 => simp [splitOnBlank, nn]
  | case2 rest ih => simp [splitOnBlank, nn] at ih ⊢; simp [ih]
  | case3 c rest h hnil ih => exact absurd hnil (splitOnBlank_ne_nil rest)
  | case4 c rest h p ps hs ih =>
    rw [splitOnBlank.eq_def]
    split
    · rename_i heq
      exact absurd heq (by simp)
    · rename_i rest' heq
      injection heq with hc hr
      exact (h rest' hc hr).elim
    · rename_i c' rest' hne heq
      injection heq with hc hrest
      subst hc
      subst hrest
      rw [hs] at ih ⊢
      simp only [List.map_cons, List.flatten_cons, List.cons_append, List.append_assoc] at ih ⊢
      rw [ih]

theorem sfaGo_flatten (mc : Nat) :
    ∀ (paras buf : List (List Char)) (size : Nat),
      (sfaGo mc paras buf size).flatten = buf.reverse.flatten ++ (paras.map (· ++ nn)).flatten := by
  intro paras
  induction paras with
  | nil =>
    intro buf size
    by_cases hb : buf.isEmpty
    · have hbe : buf = [] := List.isEmpty_iff.mp hb
      simp [sfaGo, hb, hbe]
    · simp [sfaGo, hb]
  | cons para rest ih =>
    intro buf size
    simp only [sfaGo]
    split
    · simp [ih, List.append_assoc]
    · simp [ih, List.append_assoc]

/-- C2 (counterexample): splitting `"ab"` at maximum chunk size 1 produces
chunks whose concatenation is `"ab\n\n"`, not the original `"ab"`: the chunker
appends a paragraph separator to every paragraph, so reconstruction fails
whenever the segment is actually split. -/
theorem c2_counterexample :
    (splitForApi (toL "ab") 1).flatten = toL "ab" ++ nn ∧
    (splitForApi (toL "ab") 1).flatten ≠ toL "ab" := by
  decide

/-- C2 (amended): concatenating the chunks of `split_for_api`, in order,
yields the original text when it fits in one chunk, and the original text
followed by one extra paragraph separator `"\n\n"` when it is split. -/
theorem c2_amended (text : List Char) (maxChars : Nat) :
    (splitForApi text maxChars).flatten =
      if text.length ≤ maxChars then text else text ++ nn := by
  by_cases h : text.length ≤ maxChars
  · simp [splitForApi, h]
  · rw [if_neg h]
    simp only [splitForApi, if_neg h]
    rw [sfaGo_flatten]
    simp [flatten_splitOnBlank]

/-! ## C6: the fence segmenter (`chunk_code_blocks`) -/

theorem findClose_eq_some_iff (m : List Char) :
    ∀ (t : List Char) (j : Nat),
      findClose m t = some j ↔ (m <+: t.drop j ∧ ∀ k, k < j → ¬ m <+: t.drop k) := by
  intro t
  induction t with
  | nil =>
    intro j
    simp only [findClose, List.drop_nil, startsWith_iff, List.prefix_nil]
    by_cases hm : m = []
    · subst hm
      simp only [if_pos rfl]
      constructor
      · intro hj
        injection hj with hj
        subst hj
        exact ⟨trivial, fun k hk => absurd hk (by omega)⟩
      · rintro ⟨-, h2⟩
        rcases Nat.eq_zero_or_pos j with hj | hj
        · simp [hj]
        · exact absurd trivial (h2 0 hj)
    · simp [hm]
  | cons c t ih =>
    intro j
    simp only [findClose]
    by_cases h0 : startsWith m (c :: t) = true
    · rw [if_pos h0]
      rw [startsWith_iff] at h0
      constructor
      · intro hj
        injection hj with hj
        subst hj
        exact ⟨h0, fun k hk => absurd hk (by omega)⟩
      · rintro ⟨-, h2⟩
        rcases Nat.eq_zero_or_pos j with hj | hj
        · simp [hj]
        · exact absurd h0 (h2 0 hj)
    · rw [if_neg h0]
      rw [startsWith_iff] at h0
      cases j with
      | zero =>
        simp only [List.drop_zero]
        constructor
        · intro hj
          rcases Option.map_eq_some'.mp hj with ⟨j', -, hj'⟩
          omega
        · rintro ⟨h1, -⟩
          exact absurd h1 h0
      | succ j' =>
        constructor
        · intro hj
          rcases Option.map_eq_some'.mp hj with ⟨j'', hj'', heq⟩
          have hjj : j'' = j' := by omega
          rw [hjj] at hj''
          rcases (ih j').mp hj'' with ⟨h1, h2⟩
          refine ⟨h1, fun k hk => ?_⟩
          cases k with
          | zero => simpa using h0
          | succ k' => exact h2 k' (by omega)
        · rintro ⟨h1, h2⟩
          have hj'' : findClose m t = some j' := by
            refine (ih j').mpr ⟨h1, fun k hk => ?_⟩
            have := h2 (k + 1) (by omega)
            simpa using this
          rw [hj'']
          rfl

theorem marker_decomp (m t : List Char) (j : Nat) (hm : m.length = 3)
    (hfc : findClose m t = some j) :
    ∃ mid v, t = mid ++ (m ++ v) ∧ mid.length = j ∧
      findClose m (mid ++ m) = some mid.length := by
  rcases (findClose_eq_some_iff m t j).mp hfc with ⟨h1, h2⟩
  have hlen3 : 3 ≤ (t.drop j).length := by
    have := h1.length_le
    omega
  have hjle : j ≤ t.length := by
    rw [List.length_drop] at hlen3
    omega
  refine ⟨t.take j, (t.drop j).drop 3, ?_, ?_, ?_⟩
  · rcases h1 with ⟨w, hw⟩
    have hwv : (t.drop j).drop 3 = w := by
      rw [← hw, List.drop_left' hm]
    rw [hwv, hw, List.take_append_drop]
  · exact List.length_take_of_le hjle
  · have hmidlen : (t.take j).length = j := List.length_take_of_le hjle
    refine (findClose_eq_some_iff m _ _).mpr ⟨?_, ?_⟩
    · rw [List.drop_left]
    · intro k hk hp
      rw [hmidlen] at hk
      refine h2 k hk ?_
      have hdk : (t.take j ++ m).drop k = (t.take j).drop k ++ m :=
        List.drop_append_of_le_length (by omega)
      rw [hdk] at hp
      have hp2 : m <+: ((t.take j).drop k ++ m) ++ (t.drop j).drop 3 :=
        hp.trans (List.prefix_append _ _)
      rcases h1 with ⟨w, hw⟩
      have hwv : (t.drop j).drop 3 = w := by
        rw [← hw, List.drop_left' hm]
      have htk : t.drop k = (t.take j).drop k ++ m ++ (t.drop j).drop 3 := by
        conv_lhs => rw [← List.take_append_drop j t]
        rw [List.drop_append_of_le_length (by omega), hwv, ← hw]
        simp [List.append_assoc, hmidlen]
      rw [htk]
      simpa [List.append_assoc] using hp2

theorem fence_take (m mid v : List Char) (hm : m.length = 3) :
    (m ++ (mid ++ (m ++ v))).take (mid.length + 6) = m ++ mid ++ m ∧
    (m ++ (mid ++ (m ++ v))).drop (mid.length + 6) = v := by
  constructor
  · rw [List.take_append_eq_append_take, List.take_of_length_le (by omega), hm]
    have h1 : mid.length + 6 - 3 = mid.length + 3 := by omega
    rw [h1, List.take_append_eq_append_take, List.take_of_length_le (by omega)]
    have h2 : mid.length + 3 - mid.length = 3 := by omega
    rw [h2, List.take_append_of_le_length (by omega), List.take_of_length_le (by omega)]
    simp [List.append_assoc]
  · rw [List.drop_append_eq_append_drop, List.drop_eq_nil_of_le (by omega), hm]
    have h1 : mid.length + 6 - 3 = mid.length + 3 := by omega
    rw [h1, List.drop_append_eq_append_drop, List.drop_eq_nil_of_le (by omega)]
    have h2 : mid.length + 3 - mid.length = 3 := by omega
    rw [h2, List.nil_append, List.nil_append, List.drop_left' hm]


theorem tryOpen_branch (m s code rest : List Char) (j : Nat) (hm3 : m.length = 3)
    (hsw : startsWith m s = true) (hfc : findClose m (s.drop 3) = some j)
    (hcode : s.take (j + 6) = code) (hrest : s.drop (j + 6) = rest) :
    s = code ++ rest ∧ ∃ mid, code = m ++ mid ++ m ∧
      findClose m (mid ++ m) = some mid.length := by
  rcases (startsWith_iff _ _).mp hsw with ⟨w, hw⟩
  have hsd : s.drop 3 = w := by rw [← hw]; exact List.drop_left' hm3
  have hs : s = m ++ s.drop 3 := by rw [hsd, ← hw]
  rcases marker_decomp m (s.drop 3) j hm3 hfc with ⟨mid, v, ht, hmid, hfc2⟩
  have hs2 : s = m ++ (mid ++ (m ++ v)) := by rw [hs, ht]
  obtain ⟨hTake, hDrop⟩ := fence_take m mid v hm3
  have hj6 : j + 6 = mid.length + 6 := by omega
  refine ⟨by rw [← hcode, ← hrest, List.take_append_drop], ⟨mid, ?_, hfc2⟩⟩
  rw [← hcode]
  conv_lhs => rw [hs2, hj6]
  exact hTake

theorem tryOpen_some_spec {s code rest : List Char} (h : tryOpen s = some (code, rest)) :
    s = code ++ rest ∧ ∃ m mid, (m = btM ∨ m = tdM) ∧ code = m ++ mid ++ m ∧
      findClose m (mid ++ m) = some mid.length := by
  unfold tryOpen at h
  by_cases hbt : startsWith btM s = true
  · rw [if_pos hbt] at h
    cases hfc : findClose btM (s.drop 3) with
    | none => rw [hfc] at h; exact absurd h (by simp)
    | some j =>
      rw [hfc] at h
      simp only [Option.some.injEq, Prod.mk.injEq] at h
      obtain ⟨hcode, hrest⟩ := h
      rcases tryOpen_branch btM s code rest j (by decide) hbt hfc hcode hrest with ⟨h1, mid, h2, h3⟩
      exact ⟨h1, btM, mid, Or.inl rfl, h2, h3⟩
  · rw [if_neg hbt] at h
    by_cases htd : startsWith tdM s = true
    · rw [if_pos htd] at h
      cases hfc : findClose tdM (s.drop 3) with
      | none => rw [hfc] at h; exact absurd h (by simp)
      | some j =>
        rw [hfc] at h
        simp only [Option.some.injEq, Prod.mk.injEq] at h
        obtain ⟨hcode, hrest⟩ := h
        rcases tryOpen_branch tdM s code rest j (by decide) htd hfc hcode hrest with ⟨h1, mid, h2, h3⟩
        exact ⟨h1, tdM, mid, Or.inr rfl, h2, h3⟩
    · rw [if_neg htd] at h
      exact absurd h (by simp)

theorem findFence_some_spec :
    ∀ (s pre code rest : List Char), findFence s = some (pre, code, rest) →
      s = pre ++ (code ++ rest) ∧ ∃ m mid, (m = btM ∨ m = tdM) ∧ code = m ++ mid ++ m ∧
        findClose m (mid ++ m) = some mid.length := by
  intro s
  induction s with
  | nil => intro pre code rest h; exact absurd h (by simp [findFence])
  | cons c t ih =>
    intro pre code rest h
    unfold findFence at h
    cases hto : tryOpen (c :: t) with
    | some cr =>
      obtain ⟨cdd, rst⟩ := cr
      simp only [hto, Option.some.injEq, Prod.mk.injEq] at h
      obtain ⟨hpre, hcode, hrest⟩ := h
      subst hpre
      subst hcode
      subst hrest
      rcases tryOpen_some_spec hto with ⟨hs, hex⟩
      exact ⟨by simpa using hs, hex⟩
    | none =>
      cases hff : findFence t with
      | none => simp [hto, hff] at h
      | some pcr =>
        obtain ⟨p2, c2, r2⟩ := pcr
        simp only [hto, hff, Option.map_some', Option.some.injEq, Prod.mk.injEq] at h
        obtain ⟨hpre, hcode, hrest⟩ := h
        subst hpre
        subst hcode
        subst hrest
        rcases ih p2 c2 r2 hff with ⟨hs, hex⟩
        exact ⟨by rw [List.cons_append, ← hs], hex⟩


theorem marker_len3 {m : List Char} (hm : m = btM ∨ m = tdM) : m.length = 3 := by
  rcases hm with h | h <;> subst h <;> decide

theorem ccbAux_flatten : ∀ (fuel : Nat) (s : List Char), s.length < fuel →
    ((ccbAux fuel s).map Prod.snd).flatten = s := by
  intro fuel
  induction fuel with
  | zero => intro s hs; omega
  | succ fuel ih =>
    intro s hs
    simp only [ccbAux]
    cases hff : findFence s with
    | none =>
      by_cases hnil : s = [] <;> simp [hnil]
    | some pcr =>
      obtain ⟨pre, code, rest⟩ := pcr
      dsimp only
      rcases findFence_some_spec s pre code rest hff with ⟨hs2, m, mid, hm, hcode, -⟩
      have hm3 : m.length = 3 := marker_len3 hm
      have hcl : code.length = mid.length + 6 := by
        rw [hcode]
        simp only [List.length_append, hm3]
        omega
      have hslen := congrArg List.length hs2
      simp only [List.length_append] at hslen
      have hrlen : rest.length < fuel := by omega
      by_cases hpre : pre = []
      · rw [if_pos hpre]
        simp only [List.nil_append, List.map_cons, List.flatten_cons, ih rest hrlen]
        rw [hs2, hpre, List.nil_append]
      · rw [if_neg hpre]
        simp only [List.map_append, List.map_cons, List.flatten_append, List.flatten_cons,
          List.map_nil, List.flatten_nil, ih rest hrlen]
        rw [hs2]
        simp [List.append_assoc]

theorem ccbAux_sound : ∀ (fuel : Nat) (s : List Char), s.length < fuel →
    ∀ seg ∈ ccbAux fuel s,
      (seg.1 = SegKind.text → seg.2 ≠ []) ∧
      (seg.1 = SegKind.code → ∃ m mid, (m = btM ∨ m = tdM) ∧ seg.2 = m ++ mid ++ m ∧
        findClose m (mid ++ m) = some mid.length) := by
  intro fuel
  induction fuel with
  | zero => intro s hs; omega
  | succ fuel ih =>
    intro s hs seg hseg
    simp only [ccbAux] at hseg
    cases hff : findFence s with
    | none =>
      rw [hff] at hseg
      dsimp only at hseg
      by_cases hnil : s = []
      · rw [if_pos hnil] at hseg
        simp at hseg
      · rw [if_neg hnil] at hseg
        simp only [List.mem_singleton] at hseg
        subst hseg
        exact ⟨fun _ => hnil, fun h => by simp at h⟩
    | some pcr =>
      obtain ⟨pre, code, rest⟩ := pcr
      rw [hff] at hseg
      dsimp only at hseg
      rcases findFence_some_spec s pre code rest hff with ⟨hs2, m, mid, hm, hcode, hmin⟩
      have hm3 : m.length = 3 := marker_len3 hm
      have hcl : code.length = mid.length + 6 := by
        rw [hcode]
        simp only [List.length_append, hm3]
        omega
      have hslen := congrArg List.length hs2
      simp only [List.length_append] at hslen
      have hrlen : rest.length < fuel := by omega
      rcases List.mem_append.mp hseg with hseg1 | hseg2
      · by_cases hpre : pre = []
        · rw [if_pos hpre] at hseg1
          simp at hseg1
        · rw [if_neg hpre] at hseg1
          simp only [List.mem_singleton] at hseg1
          subst hseg1
          exact ⟨fun _ => hpre, fun h => by simp at h⟩
      · rcases List.mem_cons.mp hseg2 with hseg3 | hseg4
        · subst hseg3
          exact ⟨fun h => by simp at h, fun _ => ⟨m, mid, hm, hcode, hmin⟩⟩
        · exact ih rest hrlen seg hseg4


/-- C6 (counterexample): the regex of `chunk_code_blocks` has no line anchor,
so on the newline-free input `"a` ``` `b` ``` `c"` a code span is recognised
even though its opening marker is preceded by `a` mid-line — refuting the
claim that a code span is recognised *only* at a line-opening marker. -/
theorem c6_counterexample :
    chunkCodeBlocks (toL "a```b```c") =
      [(SegKind.text, toL "a"), (SegKind.code, toL "```b```"), (SegKind.text, toL "c")] ∧
    (toL "a```b```c").all (fun ch => ch != '\n') = true := by
  decide

/-- C6 (amended): the fence segmenter recognises a code span wherever (at any
position, not only line-opening) a three-backtick or three-tilde marker has a
later closing occurrence of the same marker; the span ends at the *next*
occurrence (non-greedy: `findClose` returns the least index); everything else
becomes text segments with empty ones omitted (so segment contents concatenate
back to the input); and an unterminated marker stays inside a text segment. -/
theorem c6_amended :
    (∀ s : List Char, ((chunkCodeBlocks s).map Prod.snd).flatten = s) ∧
    (∀ s : List Char, ∀ seg ∈ chunkCodeBlocks s, seg.1 = SegKind.text → seg.2 ≠ []) ∧
    (∀ s : List Char, ∀ seg ∈ chunkCodeBlocks s, seg.1 = SegKind.code →
      ∃ m mid, (m = btM ∨ m = tdM) ∧ seg.2 = m ++ mid ++ m ∧
        findClose m (mid ++ m) = some mid.length) ∧
    chunkCodeBlocks (toL "```abc") = [(SegKind.text, toL "```abc")] := by
  refine ⟨?_, ?_, ?_, by decide⟩
  · intro s
    exact ccbAux_flatten (s.length + 1) s (by omega)
  · intro s seg hseg h
    exact (ccbAux_sound (s.length + 1) s (by omega) seg hseg).1 h
  · intro s seg hseg h
    exact (ccbAux_sound (s.length + 1) s (by omega) seg hseg).2 h

/-- C6 (witness): the amended theorem applied to the concrete input
`"a` ``` `b` ``` `c"` and its code segment. -/
theorem c6_amended_witness :
    ∃ m mid, (m = btM ∨ m = tdM) ∧ toL "```b```" = m ++ mid ++ m ∧
      findClose m (mid ++ m) = some mid.length :=
  c6_amended.2.2.1 (toL "a```b```c") (SegKind.code, toL "```b```") (by decide) rfl

/-! ## C3: code segments are preserved byte-for-byte -/

/-- C3: every code segment of the input occurs byte-identically (as a
contiguous infix, in order) in the written output of `translate_plain_file`,
for every provider behaviour, word predicate and glossary; and an eligible
JSON string leaf goes through the identical pipeline, in whose output the code
segment likewise occurs byte-identically.  Only text segments pass through
translation and the glossary. -/
theorem c3_code_preservation (env : TrEnv) (w : Char → Bool) (g : List GEntry)
    (cfg : JsonCfg) (key : String) (s : List Char) :
    ∀ seg ∈ chunkCodeBlocks s, seg.1 = SegKind.code →
      seg.2 <:+: translatePlainFile env w g s ∧
      (jsonEligible cfg key s = true →
        translateJsonValue env w g cfg key (JVal.str s) = JVal.str (translateSegments env w g s) ∧
        seg.2 <:+: translateSegments env w g s) := by
  intro seg hseg hcode
  have hmem : seg.2 ∈ (chunkCodeBlocks s).map (fun sg =>
      match sg.1 with
      | SegKind.code => sg.2
      | SegKind.text => applyGlossary w g (translate env sg.2).1) := by
    refine List.mem_map.mpr ⟨seg, hseg, ?_⟩
    obtain ⟨k, content⟩ := seg
    cases k
    · exact absurd hcode (by simp)
    · rfl
  have hinf : seg.2 <:+: translateSegments env w g s := List.infix_of_mem_flatten hmem
  exact ⟨hinf, fun he => ⟨by simp [translateJsonValue, he], hinf⟩⟩

/-- C3 (witness): the theorem applied to the concrete input `"a` ``` `c` ``` `b"`,
a concrete environment, empty glossary and a policy under which the string is
eligible. -/
theorem c3_witness :
    toL "```c```" <:+: translatePlainFile envOk asciiWordChar [] (toL "a```c```b") ∧
    translateJsonValue envOk asciiWordChar [] ⟨"include_except_ignored", [], [], []⟩ "k"
        (JVal.str (toL "a```c```b")) =
      JVal.str (translateSegments envOk asciiWordChar [] (toL "a```c```b")) := by
  have h := c3_code_preservation envOk asciiWordChar []
    ⟨"include_except_ignored", [], [], []⟩ "k" (toL "a```c```b")
    (SegKind.code, toL "```c```") (by decide) rfl
  exact ⟨h.1, (h.2 (by decide)).1⟩


/-! ## C9: the glossary postprocessor -/

theorem infix_escape_append (q : List Char) (hq : q ≠ []) :
    ∀ (a b : List Char), (∀ c ∈ a, c ∉ q) → q <:+: a ++ b → q <:+: b := by
  intro a
  induction a with
  | nil => intro b _ h; simpa using h
  | cons d a2 ih =>
    intro b hdisj h
    rcases List.infix_cons_iff.mp h with hpre | htail
    · obtain ⟨qh, qt, rfl⟩ : ∃ h t, q = h :: t := by
        cases q with
        | nil => exact absurd rfl hq
        | cons x xs => exact ⟨x, xs, rfl⟩
      rcases List.cons_prefix_cons.mp hpre with ⟨hqh, -⟩
      subst hqh
      exact absurd (List.mem_cons_self _ _) (hdisj qh (List.mem_cons_self _ _))
    · exact ih b (fun c hc => hdisj c (List.mem_cons_of_mem d hc)) htail

theorem scanRep_prefix_rev (m : Option Char → List Char → Option Nat) (dst : List Char)
    (hd : dst ≠ []) :
    ∀ (fuel : Nat) (q s : List Char) (prv : Option Char), q ≠ [] → (∀ c ∈ q, c ∉ dst) →
      s.length ≤ fuel → q <+: scanRep m dst fuel prv s → q <+: s := by
  intro fuel
  induction fuel with
  | zero =>
    intro q s prv hq hqd hlen hp
    have hs : s = [] := List.length_eq_zero.mp (by omega)
    subst hs
    simpa [scanRep] using hp
  | succ fuel ih =>
    intro q s prv hq hqd hlen hp
    cases s with
    | nil => simpa [scanRep] using hp
    | cons c rest =>
      simp only [scanRep] at hp
      cases hm : m prv (c :: rest) with
      | some k =>
        rw [hm] at hp
        dsimp only at hp
        obtain ⟨qh, qt, rfl⟩ : ∃ h t, q = h :: t := by
          cases q with
          | nil => exact absurd rfl hq
          | cons x xs => exact ⟨x, xs, rfl⟩
        obtain ⟨dh, dt, hdst⟩ : ∃ h t, dst = h :: t := by
          cases dst with
          | nil => exact absurd rfl hd
          | cons x xs => exact ⟨x, xs, rfl⟩
        rw [hdst, List.cons_append] at hp
        rcases List.cons_prefix_cons.mp hp with ⟨hqh, -⟩
        subst hqh
        exact absurd (hdst ▸ List.mem_cons_self qh dt) (hqd qh (List.mem_cons_self _ _))
      | none =>
        rw [hm] at hp
        dsimp only at hp
        obtain ⟨qh, qt, rfl⟩ : ∃ h t, q = h :: t := by
          cases q with
          | nil => exact absurd rfl hq
          | cons x xs => exact ⟨x, xs, rfl⟩
        rcases List.cons_prefix_cons.mp hp with ⟨hqh, hqt⟩
        subst hqh
        by_cases hqte : qt = []
        · subst hqte
          exact List.cons_prefix_cons.mpr ⟨rfl, List.nil_prefix⟩
        · have hlen2 : rest.length ≤ fuel := by
            simp only [List.length_cons] at hlen
            omega
          have := ih qt rest (some qh) hqte
            (fun c hc => hqd c (List.mem_cons_of_mem _ hc)) hlen2 hqt
          exact List.cons_prefix_cons.mpr ⟨rfl, this⟩

theorem scanRep_infix_rev (m : Option Char → List Char → Option Nat) (dst : List Char)
    (hd : dst ≠ []) :
    ∀ (fuel : Nat) (q s : List Char) (prv : Option Char), q ≠ [] → (∀ c ∈ q, c ∉ dst) →
      s.length ≤ fuel → q <:+: scanRep m dst fuel prv s → q <:+: s := by
  intro fuel
  induction fuel with
  | zero =>
    intro q s prv hq hqd hlen hp
    have hs : s = [] := List.length_eq_zero.mp (by omega)
    subst hs
    simp [scanRep, List.infix_nil] at hp
    exact absurd hp hq
  | succ fuel ih =>
    intro q s prv hq hqd hlen hp
    cases s with
    | nil =>
      simp [scanRep, List.infix_nil] at hp
      exact absurd hp hq
    | cons c rest =>
      have hlen2 : rest.length ≤ fuel := by
        simp only [List.length_cons] at hlen
        omega
      simp only [scanRep] at hp
      cases hm : m prv (c :: rest) with
      | some k =>
        rw [hm] at hp
        dsimp only at hp
        have hesc : q <:+: scanRep m dst fuel (some ((c :: rest).getD k c)) (rest.drop k) :=
          infix_escape_append q hq dst _ (fun c2 hc2 hc2q => hqd c2 hc2q hc2) hp
        have hdk : q <:+: rest.drop k :=
          ih q (rest.drop k) _ hq hqd (by simp [List.length_drop]; omega) hesc
        exact hdk.trans
          ( List.IsSuffix.isInfix ((List.drop_suffix k rest).trans (List.suffix_cons c rest)))
      | none =>
        rw [hm] at hp
        dsimp only at hp
        rcases List.infix_cons_iff.mp hp with hpre | htail
        · obtain ⟨qh, qt, rfl⟩ : ∃ h t, q = h :: t := by
            cases q with
            | nil => exact absurd rfl hq
            | cons x xs => exact ⟨x, xs, rfl⟩
          rcases List.cons_prefix_cons.mp hpre with ⟨hqh, hqt⟩
          subst hqh
          by_cases hqte : qt = []
          · subst hqte
            exact List.IsPrefix.isInfix (List.cons_prefix_cons.mpr ⟨rfl, List.nil_prefix⟩)
          · have := scanRep_prefix_rev m dst hd fuel qt rest (some qh) hqte
              (fun c2 hc2 => hqd c2 (List.mem_cons_of_mem _ hc2)) hlen2 hqt
            exact List.IsPrefix.isInfix (List.cons_prefix_cons.mpr ⟨rfl, this⟩)
        · have := ih q rest (some c) hq hqd hlen2 htail
          exact this.trans ( List.IsSuffix.isInfix (List.suffix_cons c rest))


theorem scanRep_no_occ (m : Option Char → List Char → Option Nat) (pat dst : List Char)
    (hp : pat ≠ []) (hd : dst ≠ []) (hdisj : ∀ c ∈ dst, c ∉ pat)
    (hmn : ∀ prv t, m prv t = none → ¬ pat <+: t) :
    ∀ (fuel : Nat) (s : List Char) (prv : Option Char), s.length ≤ fuel →
      ¬ pat <:+: scanRep m dst fuel prv s := by
  intro fuel
  induction fuel with
  | zero =>
    intro s prv hlen hinf
    have hs : s = [] := List.length_eq_zero.mp (by omega)
    subst hs
    simp [scanRep, List.infix_nil] at hinf
    exact hp hinf
  | succ fuel ih =>
    intro s prv hlen hinf
    cases s with
    | nil =>
      simp [scanRep, List.infix_nil] at hinf
      exact hp hinf
    | cons c rest =>
      have hlen2 : rest.length ≤ fuel := by
        simp only [List.length_cons] at hlen
        omega
      simp only [scanRep] at hinf
      cases hm : m prv (c :: rest) with
      | some k =>
        rw [hm] at hinf
        dsimp only at hinf
        have hesc : pat <:+: scanRep m dst fuel (some ((c :: rest).getD k c)) (rest.drop k) :=
          infix_escape_append pat hp dst _ (fun c2 hc2 hc2q => hdisj c2 hc2 hc2q) hinf
        exact ih (rest.drop k) _ (by simp [List.length_drop]; omega) hesc
      | none =>
        rw [hm] at hinf
        dsimp only at hinf
        have hnp : ¬ pat <+: (c :: rest) := hmn prv (c :: rest) hm
        rcases List.infix_cons_iff.mp hinf with hpre | htail
        · obtain ⟨qh, qt, hqe⟩ : ∃ h t, pat = h :: t := by
            cases pat with
            | nil => exact absurd rfl hp
            | cons x xs => exact ⟨x, xs, rfl⟩
          rw [hqe] at hpre
          rcases List.cons_prefix_cons.mp hpre with ⟨hqh, hqt⟩
          subst hqh
          by_cases hqte : qt = []
          · subst hqte
            exact hnp (by rw [hqe]; exact List.cons_prefix_cons.mpr ⟨rfl, List.nil_prefix⟩)
          · have hqtr : qt <+: rest := scanRep_prefix_rev m dst hd fuel qt rest (some qh) hqte
              (fun c2 hc2 hc2d => hdisj c2 hc2d (hqe ▸ List.mem_cons_of_mem _ hc2)) hlen2 hqt
            exact hnp (by rw [hqe]; exact List.cons_prefix_cons.mpr ⟨rfl, hqtr⟩)
        · exact ih rest (some c) hlen2 htail

theorem strReplace_infix_rev (pat dst q s : List Char) (hd : dst ≠ []) (hq : q ≠ [])
    (hqd : ∀ c ∈ q, c ∉ dst) (h : q <:+: strReplace pat dst s) : q <:+: s :=
  scanRep_infix_rev _ dst hd s.length q s none hq hqd (Nat.le_refl _) h

theorem reSub_infix_rev (w : Char → Bool) (pat dst q s : List Char) (hd : dst ≠ [])
    (hq : q ≠ []) (hqd : ∀ c ∈ q, c ∉ dst) (h : q <:+: reSub w pat dst s) : q <:+: s :=
  scanRep_infix_rev _ dst hd s.length q s none hq hqd (Nat.le_refl _) h

theorem strReplace_no_occ (pat dst s : List Char) (hp : pat ≠ []) (hd : dst ≠ [])
    (hdisj : ∀ c ∈ dst, c ∉ pat) : ¬ pat <:+: strReplace pat dst s := by
  refine scanRep_no_occ _ pat dst hp hd hdisj ?_ s.length s none (Nat.le_refl _)
  intro prv t hm hpre
  have hne : pat.isEmpty = false := by
    cases pat with
    | nil => exact absurd rfl hp
    | cons x xs => rfl
  have hsw : startsWith pat t = true := (startsWith_iff pat t).mpr hpre
  rw [hsw, hne] at hm
  simp at hm


/-- C9: with glossary entries ("AI Agent" → "X") and ("AI" → "Y"),
`load_glossary`'s stable descending-length sort orders "AI Agent" first from
either input order; applying `apply_glossary` leaves no occurrence of
"AI Agent" in the output of any input text and any word predicate (so no
occurrence is ever turned into "Y" plus a residual "Agent"); and the text
"AI Agent" itself is rewritten to exactly "X". -/
theorem c9_glossary_precedence :
    (∀ (w : Char → Bool) (s : List Char),
      containsSub (toL "AI Agent") (applyGlossary w gEx s) = false) ∧
    sortGlossary [(toL "AI", toL "Y"), (toL "AI Agent", toL "X")] = gEx ∧
    sortGlossary gEx = gEx ∧
    applyGlossary asciiWordChar gEx (toL "AI Agent") = toL "X" := by
  refine ⟨?_, by decide, by decide, by decide⟩
  intro w s
  by_contra hne
  have htrue : containsSub (toL "AI Agent") (applyGlossary w gEx s) = true := by
    cases h : containsSub (toL "AI Agent") (applyGlossary w gEx s) with
    | false => exact absurd h hne
    | true => rfl
  have hinf := (containsSub_iff _ _).mp htrue
  have hexp : applyGlossary w gEx s =
      reSub w (toL "AI") (toL "Y")
        (strReplace (toL "AI") (toL "Y")
          (reSub w (toL "AI Agent") (toL "X")
            (strReplace (toL "AI Agent") (toL "X") s))) := rfl
  rw [hexp] at hinf
  have h2 := reSub_infix_rev w (toL "AI") (toL "Y") (toL "AI Agent") _
    (by decide) (by decide) (by decide) hinf
  have h1 := strReplace_infix_rev (toL "AI") (toL "Y") (toL "AI Agent") _
    (by decide) (by decide) (by decide) h2
  have h0 := reSub_infix_rev w (toL "AI Agent") (toL "X") (toL "AI Agent") _
    (by decide) (by decide) (by decide) h1
  exact strReplace_no_occ (toL "AI Agent") (toL "X") s (by decide) (by decide) (by decide) h0


/-! ## C4: JSON shape preservation -/

mutual
theorem sameShape_tjv (env : TrEnv) (w : Char → Bool) (g : List GEntry) (cfg : JsonCfg) :
    ∀ (key : String) (v : JVal), sameShape v (translateJsonValue env w g cfg key v) = true
  | key, JVal.str s => by
    simp only [translateJsonValue]
    split <;> rfl
  | key, JVal.num n => by simp [translateJsonValue, sameShape]
  | key, JVal.boolv b => by simp [translateJsonValue, sameShape]
  | key, JVal.null => by simp [translateJsonValue, sameShape]
  | key, JVal.arr xs => by
    simp only [translateJsonValue, sameShape]
    exact sameShapeArr_tjv env w g cfg key xs
  | key, JVal.obj ms => by
    simp only [translateJsonValue, sameShape]
    exact sameShapeObj_tjv env w g cfg ms
theorem sameShapeArr_tjv (env : TrEnv) (w : Char → Bool) (g : List GEntry) (cfg : JsonCfg) :
    ∀ (key : String) (xs : JArr), sameShapeArr xs (translateJsonArr env w g cfg key xs) = true
  | key, JArr.nil => by simp [translateJsonArr, sameShapeArr]
  | key, JArr.cons x xs => by
    simp only [translateJsonArr, sameShapeArr, Bool.and_eq_true]
    exact ⟨sameShape_tjv env w g cfg key x, sameShapeArr_tjv env w g cfg key xs⟩
theorem sameShapeObj_tjv (env : TrEnv) (w : Char → Bool) (g : List GEntry) (cfg : JsonCfg) :
    ∀ (ms : JObj), sameShapeObj ms (translateJsonObj env w g cfg ms) = true
  | JObj.nil => by simp [translateJsonObj, sameShapeObj]
  | JObj.cons k x ms => by
    simp only [translateJsonObj, sameShapeObj, Bool.and_eq_true]
    exact ⟨⟨by simp, sameShape_tjv env w g cfg k x⟩, sameShapeObj_tjv env w g cfg ms⟩
end

/-- C4: the JSON walker preserves shape — same constructors and nesting, same
object keys in the same order, same array lengths and element order, and
non-string leaves (numbers, booleans, null) compare equal — and a String leaf
judged ineligible is returned unchanged, so only eligible String leaves can
change value. -/
theorem c4_json_shape (env : TrEnv) (w : Char → Bool) (g : List GEntry) (cfg : JsonCfg) :
    (∀ (key : String) (v : JVal), sameShape v (translateJsonValue env w g cfg key v) = true) ∧
    (∀ (key : String) (s : List Char), jsonEligible cfg key s = false →
      translateJsonValue env w g cfg key (JVal.str s) = JVal.str s) := by
  refine ⟨sameShape_tjv env w g cfg, ?_⟩
  intro key s h
  simp [translateJsonValue, h]

/-- C4 (witness): the theorem applied to the object of scenario 2 (a
`"name"` key holding the identifier-like value `"foo-bar"`). -/
theorem c4_witness :
    sameShape (JVal.obj (JObj.cons "name" (JVal.str (toL "foo-bar")) JObj.nil))
        (translateJsonValue envOk asciiWordChar [] ⟨"include_except_ignored", [], [], []⟩ ""
          (JVal.obj (JObj.cons "name" (JVal.str (toL "foo-bar")) JObj.nil))) = true ∧
    translateJsonValue envOk asciiWordChar [] ⟨"include_except_ignored", [], [], []⟩ "name"
        (JVal.str (toL "foo-bar")) = JVal.str (toL "foo-bar") := by
  have h := c4_json_shape envOk asciiWordChar [] ⟨"include_except_ignored", [], [], []⟩
  exact ⟨h.1 "" _, h.2 "name" (toL "foo-bar") (by decide)⟩

/-! ## C7: the eligibility precedence -/

/-- C7: for a String leaf with key K and value V, the walker's decision
follows exactly the documented precedence: prefer_keys overrides; then
ignore_keys excludes; then mode include_except_ignored translates unless V is
identifier-like and at most 32 characters; then mode include_only translates
exactly the include_keys; any other mode translates nothing. -/
theorem c7_eligibility_precedence (cfg : JsonCfg) (key : String) (v : List Char) :
    (key ∈ cfg.preferKeys → jsonEligible cfg key v = true) ∧
    (key ∉ cfg.preferKeys → key ∈ cfg.ignoreKeys → jsonEligible cfg key v = false) ∧
    (key ∉ cfg.preferKeys → key ∉ cfg.ignoreKeys → cfg.mode = "include_except_ignored" →
      (jsonEligible cfg key v = true ↔ ¬(isProbablyIdentifier v = true ∧ v.length ≤ 32))) ∧
    (key ∉ cfg.preferKeys → key ∉ cfg.ignoreKeys → cfg.mode = "include_only" →
      (jsonEligible cfg key v = true ↔ key ∈ cfg.includeKeys)) ∧
    (key ∉ cfg.preferKeys → key ∉ cfg.ignoreKeys → cfg.mode ≠ "include_except_ignored" →
      cfg.mode ≠ "include_only" → jsonEligible cfg key v = false) := by
  refine ⟨?_, ?_, ?_, ?_, ?_⟩
  · intro h
    simp [jsonEligible, h]
  · intro h1 h2
    simp [jsonEligible, h1, h2]
  · intro h1 h2 h3
    simp only [jsonEligible, h3]
    cases hb : isProbablyIdentifier v
    · simp [h1, h2, hb]
    · simp [h1, h2, hb, Nat.not_le]
  · intro h1 h2 h3
    have h4 : cfg.mode ≠ "include_except_ignored" := by rw [h3]; decide
    simp [jsonEligible, h1, h2, h3, h4]
  · intro h1 h2 h3 h4
    simp [jsonEligible, h1, h2, h3, h4]

/-- C7 (witness): the precedence applied at concrete configurations covering
each branch. -/
theorem c7_witness :
    jsonEligible ⟨"include_only", ["k"], ["k"], []⟩ "k" (toL "v") = true ∧
    jsonEligible ⟨"include_only", ["k"], [], []⟩ "k" (toL "v") = false ∧
    (jsonEligible ⟨"include_except_ignored", [], [], []⟩ "k" (toL "foo-bar") = true ↔
      ¬(isProbablyIdentifier (toL "foo-bar") = true ∧ (toL "foo-bar").length ≤ 32)) ∧
    (jsonEligible ⟨"include_only", [], [], ["k"]⟩ "k" (toL "v") = true ↔ "k" ∈ ["k"]) ∧
    jsonEligible ⟨"other", [], [], ["k"]⟩ "k" (toL "v") = false := by
  refine ⟨?_, ?_, ?_, ?_, ?_⟩
  · exact (c7_eligibility_precedence ⟨"include_only", ["k"], ["k"], []⟩ "k" (toL "v")).1
      (by decide)
  · exact (c7_eligibility_precedence ⟨"include_only", ["k"], [], []⟩ "k" (toL "v")).2.1
      (by decide) (by decide)
  · exact (c7_eligibility_precedence ⟨"include_except_ignored", [], [], []⟩ "k"
      (toL "foo-bar")).2.2.1 (by decide) (by decide) rfl
  · exact (c7_eligibility_precedence ⟨"include_only", [], [], ["k"]⟩ "k" (toL "v")).2.2.2.1
      (by decide) (by decide) rfl
  · exact (c7_eligibility_precedence ⟨"other", [], [], ["k"]⟩ "k" (toL "v")).2.2.2.2
      (by decide) (by decide) (by decide) (by decide)


/-! ## C8: the work partitioner -/

/-- C8: for every deterministic path digest, file set and batch_total N ≥ 1,
each path's batch index lies in [0, N), no path is accepted by two different
batch indices, and every path is accepted by some batch index below N — so
the N per-batch subsets partition the file set. -/
theorem c8_partition (h : String → Nat) (F : List String) (N : Nat) (hN : 1 ≤ N) :
    (∀ p ∈ F, getFileBatch h p N < N) ∧
    (∀ (b b2 : Nat) (p : String), b ≠ b2 → shouldProcessFile h p b N = true →
      shouldProcessFile h p b2 N = false) ∧
    (∀ p ∈ F, ∃ b, b < N ∧ shouldProcessFile h p b N = true) := by
  have hlt : ∀ p, getFileBatch h p N < N := by
    intro p
    unfold getFileBatch
    by_cases h1 : N ≤ 1
    · rw [if_pos h1]
      omega
    · rw [if_neg h1]
      exact Nat.mod_lt _ (by omega)
  refine ⟨fun p _ => hlt p, ?_, ?_⟩
  · intro b b2 p hne hb
    unfold shouldProcessFile at hb ⊢
    rw [beq_iff_eq] at hb
    rw [beq_eq_false_iff_ne]
    omega
  · intro p _
    exact ⟨getFileBatch h p N, hlt p, by unfold shouldProcessFile; simp⟩

/-- C8 (witness): the partition theorem applied to a concrete digest
(string length), a three-path file set and batch_total 2. -/
theorem c8_witness :
    (∀ p ∈ ["a", "bb", "ccc"], getFileBatch String.length p 2 < 2) ∧
    (∀ (b b2 : Nat) (p : String), b ≠ b2 → shouldProcessFile String.length p b 2 = true →
      shouldProcessFile String.length p b2 2 = false) ∧
    (∀ p ∈ ["a", "bb", "ccc"], ∃ b, b < 2 ∧ shouldProcessFile String.length p b 2 = true) :=
  c8_partition String.length ["a", "bb", "ccc"] 2 (by omega)

/-! ## C5: the Provider A retry policy -/

/-- C5 (counterexample): the `_openai` attempt cap is 2, so when the endpoint
answers 429, 429, 200/"T", the call raises with status 429 after two requests
and two retry waits — it never reaches the would-be successful third attempt,
refuting the claimed retryable-retryable-success scenario. -/
theorem c5_counterexample :
    openaiRequest c5resps = (HRes.err 429, 2, 2) ∧
    (openaiRequest c5resps).1 ≠ HRes.ok "T" ∧
    retryable (c5resps 0).status = true ∧ retryable (c5resps 1).status = true ∧
    c5resps 2 = ⟨200, "T"⟩ := by
  decide

/-- C5 (amended): within the attempt cap of 2, a retryable status followed by
a success yields the successful translation with exactly one retry wait
consumed and two requests issued; and a successful provider call is returned
by the engine loop after a single provider request, with no fallback to the
next configured provider. -/
theorem c5_amended (resps : Nat → HttpResp) (t : String)
    (h0 : retryable (resps 0).status = true) (h1 : (resps 1).status < 400)
    (hb : (resps 1).body = t) :
    openaiRequest resps = (HRes.ok t, 2, 1) ∧
    (∀ (env : TrEnv) (ch t2 : List Char),
      env.engineOrder = ["openai", "deepl"] → env.openaiKey = true →
      env.openaiF ch = some t2 → tryEngines env ch env.engineOrder = (some t2, 1)) := by
  constructor
  · have h1r : retryable (resps 1).status = false := by
      simp only [retryable, Bool.or_eq_false_iff, beq_eq_false_iff_ne]
      omega
    have h1n : ¬ 400 ≤ (resps 1).status := by omega
    simp only [openaiRequest, openaiGo, h0, h1r, if_true, Bool.false_eq_true, if_false,
      if_neg h1n, hb]
  · intro env ch t2 hord hkey hF
    rw [hord]
    simp [tryEngines, hkey, hF]

/-- C5 (witness): the amended theorem applied to the concrete response
sequence 429 then 200/"T". -/
theorem c5_amended_witness :
    openaiRequest (fun n => if n = 0 then ⟨429, ""⟩ else ⟨200, "T"⟩) = (HRes.ok "T", 2, 1) :=
  (c5_amended (fun n => if n = 0 then ⟨429, ""⟩ else ⟨200, "T"⟩) "T"
    (by decide) (by decide) rfl).1

/-! ## C1: behaviour on chunk-level failure -/

/-- C1 (counterexample): on the document `"A` ``` `x` ``` `B"`, the provider
translates the text segment `"A"` but every configured provider fails for the
chunk `"B"`; the driver still rewrites the file — with `"A"` translated and
`"B"` kept — so the content on disk changes even though a chunk of the
document exhausted all providers, refuting the claimed whole-document abort. -/
theorem c1_counterexample :
    translatePlainFile envC1 asciiWordChar [] (toL "A```x```B") = toL "J```x```B" ∧
    toL "J```x```B" ≠ toL "A```x```B" ∧
    splitForApi (toL "B") 4000 = [toL "B"] ∧
    (tryEngines envC1 (toL "B") envC1.engineOrder).1 = none := by
  decide

/-- C1 (amended): when every configured provider fails for some chunk of a
*text segment*, `Translator.translate` returns that segment's original text
unchanged (discarding any chunk translations already obtained for it); the
document as a whole is still reassembled, glossary-processed and written
back, and processing continues. -/
theorem c1_amended (env : TrEnv) (text : List Char)
    (hfail : ∃ ch ∈ splitForApi text 4000, (tryEngines env ch env.engineOrder).1 = none) :
    (translate env text).1 = text := by
  unfold translate
  by_cases hws : stripIsEmpty text
  · rw [if_pos hws]
  · rw [if_neg hws]
    have main : ∀ (chunks acc : List (List Char)) (n : Nat),
        (∃ ch ∈ chunks, (tryEngines env ch env.engineOrder).1 = none) →
        (trGo env text chunks acc n).1 = text := by
      intro chunks
      induction chunks with
      | nil =>
        intro acc n h2
        simp at h2
      | cons c2 rest ih =>
        intro acc n h2
        simp only [trGo]
        cases hte : tryEngines env c2 env.engineOrder with
        | mk o k =>
          cases o with
          | none => rfl
          | some t =>
            rcases h2 with ⟨ch2, hch2, hf2⟩
            rcases List.mem_cons.mp hch2 with heq | hmem
            · subst heq
              rw [hte] at hf2
              simp at hf2
            · exact ih (t :: acc) (n + k) ⟨ch2, hmem, hf2⟩
    exact main _ [] 0 hfail

/-- C1 (witness): the amended theorem applied to the single-chunk text `"B"`
and an environment in which every provider raises. -/
theorem c1_amended_witness : (translate envFail (toL "B")).1 = toL "B" :=
  c1_amended envFail (toL "B") ⟨toL "B", by decide, by decide⟩

/-! ## C10: whitespace-only input -/

/-- C10: a text that is empty or consists only of whitespace is returned
unchanged by `Translator.translate`, with zero provider requests issued. -/
theorem c10_whitespace (env : TrEnv) (text : List Char)
    (h : stripIsEmpty text = true) : translate env text = (text, 0) := by
  unfold translate
  rw [if_pos h]

/-- C10 (witness): the theorem applied to the whitespace text `"  \n"`. -/
theorem c10_witness :
    stripIsEmpty (toL "  \n") = true ∧ translate envFail (toL "  \n") = (toL "  \n", 0) :=
  ⟨by decide, c10_whitespace envFail (toL "  \n") (by decide)⟩

end TranslateRepo
